import Mathlib

/-!
Verification development for the cuirq bridge core: the dynamic table model
(jvmlistmodel.cpp), the signal-forwarding callback registry
(signalforwarder.cpp), the live-reload watcher (qmlwatcher.cpp) and the
model registry of the composition root (qmlbridge.cpp), shallowly embedded
as pure Lean functions over explicit state, with the properties of the
specification settled against them.
-/

/-- JSON-like values as produced by QJsonDocument / stored in QVariant.
Numbers are modelled as integers: no settled property depends on numeric
semantics.  A failed parse of the incoming string yields a null document,
modelled as jnull (which is not an array).  Objects carry their fields in
map-iteration order. -/
inductive Json where
  | jnull : Json
  | jbool : Bool → Json
  | jnum : Int → Json
  | jstr : String → Json
  | jarr : List Json → Json
  | jobj : List (String × Json) → Json

/-- Association-list lookup, the shallow embedding of QHash / std map
lookup (find / value): the first entry whose key matches. -/
def alookup {α β : Type} [DecidableEq α] (k : α) : List (α × β) → Option β
  | [] => none
  | (a, b) :: t => if a = k then some b else alookup k t

/-- Association-list update, the embedding of map subscript assignment
(m[k] = v): replace the value in place when the key is present, append the
entry otherwise. -/
def updateAssoc {α β : Type} [DecidableEq α] (k : α) (v : β) :
    List (α × β) → List (α × β)
  | [] => [(k, v)]
  | (a, b) :: t => if a = k then (k, v) :: t else (a, b) :: updateAssoc k v t

/-- Association-list erase, the embedding of map erase(iterator): remove
the (unique, by the no-duplicate-keys invariant) entry for the key. -/
def eraseKey {α β : Type} [DecidableEq α] (k : α) :
    List (α × β) → List (α × β)
  | [] => []
  | (a, b) :: t => if a = k then t else (a, b) :: eraseKey k t

/-- Whether a JSON value is an array (QJsonDocument isArray). -/
def Json.isArr : Json → Bool
  | .jarr _ => true
  | _ => false

/-- Whether a JSON value is an object (QJsonValue isObject). -/
def Json.isObj : Json → Bool
  | .jobj _ => true
  | _ => false

/-- The row a sequence element contributes: its field map when it is an
object, nothing otherwise (non-object elements are skipped). -/
def rowOf : Json → Option (List (String × Json))
  | .jobj fs => some fs
  | _ => none

/-- State of one JvmListModel: the visible rows (m_items), the id-to-name
role table (m_roleNames), the name-to-id role table (m_roleIds) and the
next role id to assign (m_nextRoleId).  The two role tables are QHashes;
the association lists record insertion order, which the hashes do not
expose but which the assigned ids encode. -/
structure TableSt where
  items : List (List (String × Json))
  roleNames : List (Nat × String)
  roleIds : List (String × Nat)
  nextRoleId : Nat

/-- A fresh JvmListModel: no rows, no roles, and m_nextRoleId starting at
Qt.UserRole + 1 = 256 + 1 = 257. -/
def initTable : TableSt :=
  { items := [], roleNames := [], roleIds := [], nextRoleId := 256 + 1 }

/-- JvmListModel updateRoleNames: for every key of the record, if the key
has no role yet, assign the next role id and record the pair in both
directions, incrementing the counter. -/
def updateRoleNames (item : List (String × Json)) (st : TableSt) : TableSt :=
  match item with
  | [] => st
  | kv :: t =>
    match alookup kv.1 st.roleIds with
    | some _ => updateRoleNames t st
    | none =>
      updateRoleNames t
        { st with
          roleIds := st.roleIds ++ [(kv.1, st.nextRoleId)]
          roleNames := st.roleNames ++ [(st.nextRoleId, kv.1)]
          nextRoleId := st.nextRoleId + 1 }

/-- The element loop of JvmListModel setJsonData: walk the array in order;
skip non-object elements (warning logged); convert each object to a row,
register its keys as roles, and append the row to the collected batch. -/
def processElems (elems : List Json) (acc : List (List (String × Json)))
    (st : TableSt) : List (List (String × Json)) × TableSt :=
  match elems with
  | [] => (acc, st)
  | .jobj fs :: t => processElems t (acc ++ [fs]) (updateRoleNames fs st)
  | _ :: t => processElems t acc st

/-- JvmListModel setJsonData: if the parsed payload is not an array, warn
and return with the state untouched.  Otherwise walk the array with
processElems and replace the entire row sequence with the collected rows
inside one reset transaction. -/
def setJsonData (payload : Json) (st : TableSt) : TableSt :=
  match payload with
  | .jarr elems =>
    let acc := processElems elems [] st
    { acc.2 with items := acc.1 }
  | _ => st

/-- JvmListModel clear: reset transaction replacing the rows with the empty
sequence; the role tables and the id counter are not touched. -/
def clearTable (st : TableSt) : TableSt :=
  { st with items := [] }

/-- JvmListModel count: the current number of rows (m_items size). -/
def countModel (st : TableSt) : Nat :=
  st.items.length

/-- JvmListModel data(index, role): absent when the index is invalid (row
below zero) or the row is out of range; otherwise fetch the row, look the
role id up in m_roleNames (QHash value, defaulting to the empty byte array
when absent), return absent when that name is empty, else the row's value
for that name (QVariantMap value, absent when the key is missing). -/
def dataFn (st : TableSt) (row : Int) (role : Nat) : Option Json :=
  if row < 0 ∨ (st.items.length : Int) ≤ row then none
  else
    match st.items.get? row.toNat with
    | none => none
    | some item =>
      let roleName := (alookup role st.roleNames).getD ""
      if roleName = "" then none
      else alookup roleName item

/-- The spec-level get(rowIndex, fieldName): the field name is resolved to
its role id through the read-only name-to-id table (the inverse of the
roleNames table QML consults), then data is queried; an unknown name
resolves to no role and yields absent. -/
def jvmGet (st : TableSt) (row : Int) (name : String) : Option Json :=
  match alookup name st.roleIds with
  | some rid => dataFn st row rid
  | none => none

/-- The operations a client can perform on one table model. -/
inductive TOp where
  | setData (payload : Json)
  | clearOp

/-- Apply one table operation. -/
def applyTOp (st : TableSt) : TOp → TableSt
  | .setData p => setJsonData p st
  | .clearOp => clearTable st

/-- Apply a sequence of table operations in order. -/
def applyTOps (ops : List TOp) (st : TableSt) : TableSt :=
  ops.foldl applyTOp st

/-- The field names the element loop traverses for a given array: the keys
of its object-shaped records, in traversal order. -/
def elemsKeys (elems : List Json) : List String :=
  ((elems.filterMap rowOf).map (fun r => r.map Prod.fst)).flatten

/-- The field names a payload contributes to the role-registration
traversal: the keys of its object-shaped records, in traversal order;
nothing for a non-array payload. -/
def payloadKeys : Json → List String
  | .jarr elems => elemsKeys elems
  | _ => []

/-- The field names a sequence of operations traverses, in order. -/
def opsKeys (ops : List TOp) : List String :=
  (ops.map (fun o =>
    match o with
    | .setData p => payloadKeys p
    | .clearOp => [])).flatten

/-- The keys of a traversal that are new relative to the already-seen
names, first occurrences only, in traversal order. -/
def newKeys (seen : List String) : List String → List String
  | [] => []
  | k :: t => if k ∈ seen then newKeys seen t else k :: newKeys (seen ++ [k]) t

/-- Pair a list of names with consecutive ids starting at n. -/
def withIds (n : Nat) : List String → List (String × Nat)
  | [] => []
  | k :: t => (k, n) :: withIds (n + 1) t

/-- A pinning action against the managed runtime: DeleteGlobalRef (unpin)
or NewGlobalRef (pin) on a handler reference, identified by an opaque
numeric token. -/
inductive PinAct where
  | unpin (h : Nat)
  | pin (h : Nat)
deriving DecidableEq

/-- State of the SignalForwarder together with the thread-local JNI
environment it touches: the signal-name-to-handler table (m_handlers, a
std unordered map), whether the current thread is attached to the managed
runtime, and whether a fault is pending in that environment.  GlobalRef
creation is assumed to succeed (its failure is an out-of-memory condition
outside this model). -/
structure FwdSt where
  handlers : List (String × Nat)
  attached : Bool
  pendingException : Bool
deriving DecidableEq

/-- A freshly constructed SignalForwarder: empty handler table, built on
the thread owning the managed runtime (attached), no pending fault. -/
def initFwd : FwdSt :=
  { handlers := [], attached := true, pendingException := false }

/-- SignalForwarder registerHandler: a null handler is rejected (false, no
change).  Otherwise, if an entry for the name exists its old GlobalRef is
deleted first; then a GlobalRef for the new handler is created and stored
under the name.  The returned action list records the unpin/pin order. -/
def registerHandler (name : String) (handler : Option Nat) (st : FwdSt) :
    FwdSt × Bool × List PinAct :=
  match handler with
  | none => (st, false, [])
  | some h =>
    let olds : List PinAct :=
      match alookup name st.handlers with
      | some old => [.unpin old]
      | none => []
    ({ st with handlers := updateAssoc name h st.handlers }, true,
      olds ++ [.pin h])

/-- SignalForwarder unregisterHandler: when no entry exists, log and
return (no action); otherwise delete the GlobalRef and erase the entry. -/
def unregisterHandler (name : String) (st : FwdSt) : FwdSt × List PinAct :=
  match alookup name st.handlers with
  | none => (st, [])
  | some h => ({ st with handlers := eraseKey name st.handlers }, [.unpin h])

/-- SignalForwarder callJavaHandler.  The handler's behaviour is a
parameter beh: whether invoking handler h on the given arguments leaves a
pending fault.  attachOk tells whether attaching a detached thread would
succeed.  Path: look the name up, returning untouched when absent; obtain
an environment for the current thread, attaching on demand (never
reversed) and returning without a call when attachment fails; invoke the
handler (CallVoidMethod, which records any handler fault as pending); if a
fault is pending, describe (log) and clear it.  The result carries the new
state, the list of performed callback invocations and whether a handler
fault was logged. -/
def callJavaHandler (beh : Nat → List String → Bool) (attachOk : Bool)
    (st : FwdSt) (name : String) (args : List String) :
    FwdSt × List (Nat × List String) × Bool :=
  match alookup name st.handlers with
  | none => (st, [], false)
  | some h =>
    if st.attached = false ∧ attachOk = false then (st, [], false)
    else
      let st1 := { st with attached := true }
      let st2 := { st1 with pendingException := beh h args }
      if st2.pendingException then
        ({ st2 with pendingException := false }, [(h, args)], true)
      else (st2, [(h, args)], false)

/-- SignalForwarder variantsToStrings, per element: QVariant toString on
the dynamic values QML passes.  The exact textual form is irrelevant to
every settled property; only that each argument crosses as text. -/
def toStringQ : Json → String
  | .jstr s => s
  | .jbool b => if b then "true" else "false"
  | .jnum n => toString n
  | _ => ""

/-- SignalForwarder emitSignal: convert every argument to its textual form
and forward to callJavaHandler. -/
def emitSignal (beh : Nat → List String → Bool) (attachOk : Bool)
    (st : FwdSt) (name : String) (args : List Json) :
    FwdSt × List (Nat × List String) × Bool :=
  callJavaHandler beh attachOk st name (args.map toStringQ)

/-- The operations a client can perform on the callback registry. -/
inductive ROp where
  | reg (name : String) (handler : Option Nat)
  | unreg (name : String)
deriving DecidableEq

/-- Apply one registry operation, keeping only the state. -/
def applyROp (st : FwdSt) : ROp → FwdSt
  | .reg n h => (registerHandler n h st).1
  | .unreg n => (unregisterHandler n st).1

/-- Apply a sequence of registry operations in order. -/
def applyROps (ops : List ROp) (st : FwdSt) : FwdSt :=
  ops.foldl applyROp st

/-- The handler the most recent successful register call for the name
installed, when no unregister for the name follows it, threading an
accumulator through the trace: a successful register overwrites it, a
failed (null-handler) register leaves it, an unregister for the name
drops it. -/
def lastHandlerFrom (acc : Option Nat) (name : String) :
    List ROp → Option Nat
  | [] => acc
  | .reg n (some h) :: t =>
    lastHandlerFrom (if n = name then some h else acc) name t
  | .reg _ none :: t => lastHandlerFrom acc name t
  | .unreg n :: t =>
    lastHandlerFrom (if n = name then none else acc) name t

/-- The handler the claim predicts for a name after a trace of registry
operations starting from an empty registry. -/
def lastHandler (ops : List ROp) (name : String) : Option Nat :=
  lastHandlerFrom none name ops

/-- State of the QmlWatcher: the auto-reload flag (m_autoReload), the set
of watched paths (the QFileSystemWatcher file list) and the single-shot
timers currently scheduled, each as (absolute fire time, path).  The code
schedules timers with QTimer singleShot and keeps no handle to them, so
no operation ever cancels a pending timer; every scheduled timer fires
and performs one reloadQml. -/
structure WatchSt where
  autoReload : Bool
  watched : List String
  pendingTimers : List (Nat × String)
deriving DecidableEq

/-- A freshly constructed QmlWatcher: auto-reload enabled, nothing
watched, no timer pending. -/
def initWatch : WatchSt :=
  { autoReload := true, watched := [], pendingTimers := [] }

/-- QmlWatcher onFileChanged at absolute time t: when auto-reload is
disabled the event is ignored; otherwise the watch is defensively
re-armed when the underlying watcher dropped the path, and a fresh
single-shot timer is scheduled to reload the path 100 ms later.  No
existing timer is consulted or cancelled. -/
def onFileChanged (t : Nat) (path : String) (st : WatchSt) : WatchSt :=
  if st.autoReload = false then st
  else
    let st1 :=
      if path ∈ st.watched then st
      else { st with watched := st.watched ++ [path] }
    { st1 with pendingTimers := st1.pendingTimers ++ [(t + 100, path)] }

/-- Deliver a sequence of change notifications, each with its absolute
arrival time, in order. -/
def notifyAll (evs : List (Nat × String)) (st : WatchSt) : WatchSt :=
  evs.foldl (fun s e => onFileChanged e.1 e.2 s) st

/-- The number of reloads a quiescent burst produces: every scheduled
single-shot timer fires exactly once and each firing runs reloadQml. -/
def reloadsFired (st : WatchSt) : Nat :=
  st.pendingTimers.length

/-- State of the UI engine as the watcher touches it: the current root
objects, the deferred-deletion queue (deleteLater schedules destruction
for a later event-loop turn) and whether the compiled component cache has
been dropped since the last load. -/
structure EngineSt where
  roots : List Nat
  deferredDeletions : List Nat
  cacheCleared : Bool
deriving DecidableEq

/-- Result of one reloadQml run: the watcher state, the engine state,
whether the process was terminated, and whether a reload failure was
logged. -/
structure ReloadOut where
  watcher : WatchSt
  engine : EngineSt
  terminated : Bool
  failureLogged : Bool
deriving DecidableEq

/-- QmlWatcher reloadQml.  loadRoots is the set of root objects the
engine's load of the watched file produces (empty when the file fails to
load).  Steps: bail out when no engine is available; (1) state survival is
automatic, nothing is saved; (2) every old root is scheduled for deferred
destruction; (3) the component cache is cleared; (4) the file is loaded
fresh, contributing its roots; (5) when the engine then has no root
objects the failure is logged and the run returns — the auto-reload flag
and the watch list are never touched, and the process is never
terminated. -/
def reloadQml (engineOk : Bool) (loadRoots : List Nat)
    (w : WatchSt) (e : EngineSt) : ReloadOut :=
  if engineOk = false then ⟨w, e, false, false⟩
  else
    let e1 : EngineSt :=
      { roots := [], deferredDeletions := e.deferredDeletions ++ e.roots
        cacheCleared := e.cacheCleared }
    let e2 : EngineSt := { e1 with cacheCleared := true }
    let e3 : EngineSt := { e2 with roots := e2.roots ++ loadRoots }
    if e3.roots = [] then ⟨w, e3, false, true⟩
    else ⟨w, e3, false, false⟩

/-- State of the composition root's model registry: whether the engine has
been initialized, and the named table models (g_models). -/
structure BridgeSt where
  engineInit : Bool
  models : List (String × TableSt)

/-- Java_qml_Bridge_createModel: a guarded no-op before initialization; a
logged no-op when a model with the name already exists; otherwise a fresh
table model is created, stored under the name and exposed to the UI. -/
def createModel (name : String) (st : BridgeSt) : BridgeSt :=
  if st.engineInit = false then st
  else
    match alookup name st.models with
    | some _ => st
    | none => { st with models := st.models ++ [(name, initTable)] }

/-- Looking a key up fails exactly when the key is not among the entry
keys. -/
theorem alookup_eq_none_iff {α β : Type} [DecidableEq α] (k : α)
    (l : List (α × β)) : alookup k l = none ↔ k ∉ l.map Prod.fst := by
  induction l with
  | nil => simp [alookup]
  | cons p t ih =>
    obtain ⟨a, b⟩ := p
    by_cases hak : a = k
    · subst hak
      simp [alookup]
    · simp [alookup, hak, ih, Ne.symm hak]

/-- Looking up in an appended list falls through to the second list when
the first has no entry for the key. -/
theorem alookup_append_of_none {α β : Type} [DecidableEq α] (k : α)
    {l1 : List (α × β)} (l2 : List (α × β)) (h : alookup k l1 = none) :
    alookup k (l1 ++ l2) = alookup k l2 := by
  induction l1 with
  | nil => simp
  | cons p t ih =>
    obtain ⟨a, b⟩ := p
    by_cases hak : a = k
    · simp [alookup, hak] at h
    · simp only [alookup, hak, if_false, List.cons_append, if_neg hak] at h ⊢
      exact ih h

/-- Looking up in an appended list is resolved by the first list when it
has an entry for the key. -/
theorem alookup_append_of_some {α β : Type} [DecidableEq α] (k : α)
    {l1 : List (α × β)} (l2 : List (α × β)) {v : β}
    (h : alookup k l1 = some v) : alookup k (l1 ++ l2) = some v := by
  induction l1 with
  | nil => simp [alookup] at h
  | cons p t ih =>
    obtain ⟨a, b⟩ := p
    by_cases hak : a = k
    · simp_all [alookup]
    · simp only [alookup, if_neg hak, List.cons_append] at h ⊢
      exact ih h

/-- Lookup after an in-place update: the updated key reads the new value,
every other key is untouched. -/
theorem alookup_updateAssoc {α β : Type} [DecidableEq α] (x k : α) (v : β)
    (l : List (α × β)) :
    alookup x (updateAssoc k v l) = if k = x then some v else alookup x l := by
  induction l with
  | nil => simp [updateAssoc, alookup]
  | cons p t ih =>
    obtain ⟨a, b⟩ := p
    by_cases hak : a = k
    · subst hak
      by_cases hx : a = x
      · subst hx
        simp [updateAssoc, alookup]
      · simp [updateAssoc, alookup, hx]
    · by_cases hx : a = x
      · subst hx
        have hka : ¬ k = a := fun h => hak h.symm
        simp [updateAssoc, hak, alookup, hka]
      · simp [updateAssoc, hak, alookup, hx, ih]

/-- A key is in the keys of an update exactly when it is the updated key
or was a key before. -/
theorem mem_map_fst_updateAssoc {α β : Type} [DecidableEq α] (x k : α)
    (v : β) (l : List (α × β)) :
    x ∈ (updateAssoc k v l).map Prod.fst ↔ x = k ∨ x ∈ l.map Prod.fst := by
  induction l with
  | nil => simp [updateAssoc]
  | cons p t ih =>
    obtain ⟨a, b⟩ := p
    by_cases hak : a = k
    · subst hak
      simp [updateAssoc]
    · simp only [updateAssoc, if_neg hak, List.map_cons, List.mem_cons, ih]
      tauto

/-- In-place update preserves distinctness of the keys. -/
theorem nodup_keys_updateAssoc {α β : Type} [DecidableEq α] (k : α) (v : β)
    {l : List (α × β)} (h : (l.map Prod.fst).Nodup) :
    ((updateAssoc k v l).map Prod.fst).Nodup := by
  induction l with
  | nil => simp [updateAssoc]
  | cons p t ih =>
    obtain ⟨a, b⟩ := p
    simp only [List.map_cons, List.nodup_cons] at h
    by_cases hak : a = k
    · subst hak
      simpa [updateAssoc] using h
    · have heq : updateAssoc k v ((a, b) :: t) = (a, b) :: updateAssoc k v t := by
        simp [updateAssoc, hak]
      rw [heq, List.map_cons, List.nodup_cons]
      refine ⟨?_, ih h.2⟩
      rw [mem_map_fst_updateAssoc]
      rintro (h1 | h2)
      · exact hak h1
      · exact h.1 h2

/-- Erasing a key removes entries only: the result is a sublist. -/
theorem eraseKey_sublist {α β : Type} [DecidableEq α] (k : α)
    (l : List (α × β)) : (eraseKey k l).Sublist l := by
  induction l with
  | nil => simp [eraseKey]
  | cons p t ih =>
    obtain ⟨a, b⟩ := p
    by_cases hak : a = k
    · simp [eraseKey, hak]
    · simp only [eraseKey, if_neg hak]
      exact ih.cons₂ (a, b)

/-- When the keys are distinct, erasing a key makes its lookup fail. -/
theorem alookup_eraseKey_self {α β : Type} [DecidableEq α] (k : α)
    {l : List (α × β)} (h : (l.map Prod.fst).Nodup) :
    alookup k (eraseKey k l) = none := by
  induction l with
  | nil => simp [eraseKey, alookup]
  | cons p t ih =>
    obtain ⟨a, b⟩ := p
    simp only [List.map_cons, List.nodup_cons] at h
    by_cases hak : a = k
    · subst hak
      rw [eraseKey, if_pos rfl, alookup_eq_none_iff]
      exact h.1
    · simp only [eraseKey, if_neg hak, alookup, if_neg hak]
      exact ih h.2

/-- Erasing one key leaves the lookup of every other key unchanged. -/
theorem alookup_eraseKey_ne {α β : Type} [DecidableEq α] {x k : α}
    (hxk : x ≠ k) (l : List (α × β)) :
    alookup x (eraseKey k l) = alookup x l := by
  induction l with
  | nil => simp [eraseKey]
  | cons p t ih =>
    obtain ⟨a, b⟩ := p
    by_cases hak : a = k
    · subst hak
      have hax : ¬ a = x := fun h => hxk h.symm
      simp [eraseKey, alookup, hax]
    · by_cases hax : a = x
      · subst hax
        simp [eraseKey, if_neg hak, alookup]
      · simp [eraseKey, if_neg hak, alookup, hax, ih]

/-- First-occurrence filtering distributes over concatenation, with the
seen set of the second part grown by the new keys of the first. -/
theorem newKeys_append (seen a b : List String) :
    newKeys seen (a ++ b) = newKeys seen a ++ newKeys (seen ++ newKeys seen a) b := by
  induction a generalizing seen with
  | nil => simp [newKeys]
  | cons k t ih =>
    by_cases hk : k ∈ seen
    · simp [newKeys, hk, ih]
    · simp only [List.cons_append, newKeys, if_neg hk, List.append_eq]
      rw [ih (seen ++ [k])]
      simp [List.append_assoc]

/-- Numbering distributes over concatenation. -/
theorem withIds_append (n : Nat) (a b : List String) :
    withIds n (a ++ b) = withIds n a ++ withIds (n + a.length) b := by
  induction a generalizing n with
  | nil => simp [withIds]
  | cons k t ih =>
    simp only [List.cons_append, withIds, List.length_cons, List.append_eq]
    rw [ih (n + 1)]
    have he : n + 1 + t.length = n + (t.length + 1) := by omega
    rw [he]

/-- Numbering names keeps exactly the names as the keys. -/
theorem withIds_map_fst (n : Nat) (ks : List String) :
    (withIds n ks).map Prod.fst = ks := by
  induction ks generalizing n with
  | nil => simp [withIds]
  | cons k t ih => simp [withIds, ih]

/-- The length of a numbered list is the number of names. -/
theorem withIds_length (n : Nat) (ks : List String) :
    (withIds n ks).length = ks.length := by
  induction ks generalizing n with
  | nil => simp [withIds]
  | cons k t ih => simp [withIds, ih]

/-- First-occurrence filtering yields distinct keys, none of them already
seen. -/
theorem newKeys_nodup_not_seen (ks : List String) :
    ∀ seen : List String,
      (newKeys seen ks).Nodup ∧ ∀ k ∈ newKeys seen ks, k ∉ seen := by
  induction ks with
  | nil => intro seen; simp [newKeys]
  | cons k0 t ih =>
    intro seen
    by_cases hk : k0 ∈ seen
    · simpa [newKeys, hk] using ih seen
    · have h1 := ih (seen ++ [k0])
      simp only [newKeys, if_neg hk]
      constructor
      · refine List.nodup_cons.mpr ⟨?_, h1.1⟩
        intro hmem
        exact h1.2 k0 hmem (by simp)
      · intro k hkmem
        rcases List.mem_cons.mp hkmem with h | h
        · exact h ▸ hk
        · intro hks
          exact h1.2 k h (by simp [hks])

/-- A traversed key that is not already seen survives first-occurrence
filtering. -/
theorem mem_newKeys (k : String) (ks : List String) :
    ∀ seen : List String, k ∈ ks → k ∉ seen → k ∈ newKeys seen ks := by
  induction ks with
  | nil => intro seen h; simp at h
  | cons k0 t ih =>
    intro seen hmem hseen
    rcases List.mem_cons.mp hmem with h | h
    · subst h
      simp [newKeys, if_neg hseen]
    · by_cases hk0 : k0 ∈ seen
      · simp only [newKeys, if_pos hk0]
        exact ih seen h hseen
      · simp only [newKeys, if_neg hk0]
        by_cases hkk : k = k0
        · simp [hkk]
        · exact List.mem_cons_of_mem _ (ih (seen ++ [k0]) h (by simp [hseen, hkk]))

/-- Every id a numbered list assigns is at least the starting number. -/
theorem alookup_withIds_ge (ks : List String) :
    ∀ (n i : Nat) (name : String),
      alookup name (withIds n ks) = some i → n ≤ i := by
  induction ks with
  | nil => intro n i name h; simp [withIds, alookup] at h
  | cons k t ih =>
    intro n i name h
    simp only [withIds, alookup] at h
    by_cases hk : k = name
    · rw [if_pos hk] at h
      exact (Option.some_inj.mp h) ▸ Nat.le_refl n
    · rw [if_neg hk] at h
      exact Nat.le_of_succ_le (ih (n + 1) i name h)

/-- In a numbered list with distinct names, the id assigned to a name
looks back up to that very name through the swapped table. -/
theorem alookup_withIds_swap (ks : List String) :
    ∀ (n i : Nat) (name : String), ks.Nodup →
      alookup name (withIds n ks) = some i →
      alookup i ((withIds n ks).map (fun p => (p.2, p.1))) = some name := by
  induction ks with
  | nil => intro n i name _ h; simp [withIds, alookup] at h
  | cons k t ih =>
    intro n i name hnd h
    simp only [withIds, alookup, List.map_cons] at h ⊢
    by_cases hk : k = name
    · rw [if_pos hk] at h
      have hin : i = n := (Option.some_inj.mp h).symm
      subst hin
      simp [hk]
    · rw [if_neg hk] at h
      have hge : n + 1 ≤ i := alookup_withIds_ge t (n + 1) i name h
      have hni : ¬ n = i := fun he => by omega
      rw [if_neg hni]
      exact ih (n + 1) i name (List.nodup_cons.mp hnd).2 h

/-- Unfolding equation for first-occurrence filtering on a cons. -/
theorem newKeys_cons (seen : List String) (k : String) (t : List String) :
    newKeys seen (k :: t) =
      if k ∈ seen then newKeys seen t else k :: newKeys (seen ++ [k]) t := rfl

/-- Unfolding equation for numbering on a cons. -/
theorem withIds_cons (n : Nat) (k : String) (t : List String) :
    withIds n (k :: t) = (k, n) :: withIds (n + 1) t := rfl

/-- Characterization of updateRoleNames: the rows are untouched; both role
tables grow by exactly the record's not-yet-seen keys, numbered
consecutively from the current counter, and the counter advances by their
number. -/
theorem updateRoleNames_spec (fs : List (String × Json)) :
    ∀ st : TableSt,
      (updateRoleNames fs st).items = st.items
      ∧ (updateRoleNames fs st).roleIds =
          st.roleIds ++ withIds st.nextRoleId
            (newKeys (st.roleIds.map Prod.fst) (fs.map Prod.fst))
      ∧ (updateRoleNames fs st).roleNames =
          st.roleNames ++ (withIds st.nextRoleId
            (newKeys (st.roleIds.map Prod.fst) (fs.map Prod.fst))).map
              (fun p => (p.2, p.1))
      ∧ (updateRoleNames fs st).nextRoleId =
          st.nextRoleId +
            (newKeys (st.roleIds.map Prod.fst) (fs.map Prod.fst)).length := by
  induction fs with
  | nil => intro st; simp [updateRoleNames, newKeys, withIds]
  | cons kv t ih =>
    intro st
    cases hlk : alookup kv.1 st.roleIds with
    | some x =>
      have hmem : kv.1 ∈ st.roleIds.map Prod.fst := by
        by_contra hn
        rw [(alookup_eq_none_iff kv.1 st.roleIds).mpr hn] at hlk
        exact Option.noConfusion hlk
      have hstep : updateRoleNames (kv :: t) st = updateRoleNames t st := by
        simp [updateRoleNames, hlk]
      rw [hstep]
      simpa [List.map_cons, newKeys, hmem] using ih st
    | none =>
      have hmem : kv.1 ∉ st.roleIds.map Prod.fst :=
        (alookup_eq_none_iff kv.1 st.roleIds).mp hlk
      have hstep : updateRoleNames (kv :: t) st = updateRoleNames t
          { st with
            roleIds := st.roleIds ++ [(kv.1, st.nextRoleId)]
            roleNames := st.roleNames ++ [(st.nextRoleId, kv.1)]
            nextRoleId := st.nextRoleId + 1 } := by
        simp [updateRoleNames, hlk]
      obtain ⟨h1, h2, h3, h4⟩ := ih
        { st with
          roleIds := st.roleIds ++ [(kv.1, st.nextRoleId)]
          roleNames := st.roleNames ++ [(st.nextRoleId, kv.1)]
          nextRoleId := st.nextRoleId + 1 }
      rw [hstep]
      refine ⟨by simpa using h1, ?_, ?_, ?_⟩
      · rw [h2]
        simp [List.map_cons, newKeys, hmem, withIds, List.append_assoc]
      · rw [h3]
        simp [List.map_cons, newKeys, hmem, withIds, List.append_assoc]
      · rw [h4]
        simp [newKeys_cons, hmem]
        try omega

/-- Characterization of the setJsonData element loop: the collected batch
is the accumulator followed by exactly the object-shaped records in order;
the rows of the threaded state are untouched; the role tables grow by the
not-yet-seen traversed keys, consecutively numbered, and the counter
advances accordingly. -/
theorem processElems_spec (elems : List Json) :
    ∀ (acc : List (List (String × Json))) (st : TableSt),
      (processElems elems acc st).1 = acc ++ elems.filterMap rowOf
      ∧ (processElems elems acc st).2.items = st.items
      ∧ (processElems elems acc st).2.roleIds =
          st.roleIds ++ withIds st.nextRoleId
            (newKeys (st.roleIds.map Prod.fst) (elemsKeys elems))
      ∧ (processElems elems acc st).2.roleNames =
          st.roleNames ++ (withIds st.nextRoleId
            (newKeys (st.roleIds.map Prod.fst) (elemsKeys elems))).map
              (fun p => (p.2, p.1))
      ∧ (processElems elems acc st).2.nextRoleId =
          st.nextRoleId +
            (newKeys (st.roleIds.map Prod.fst) (elemsKeys elems)).length := by
  induction elems with
  | nil => intro acc st; simp [processElems, elemsKeys, newKeys, withIds]
  | cons v t ih =>
    intro acc st
    cases v with
    | jobj fs =>
      have hstep : processElems (Json.jobj fs :: t) acc st
          = processElems t (acc ++ [fs]) (updateRoleNames fs st) := rfl
      have hek : elemsKeys (Json.jobj fs :: t)
          = fs.map Prod.fst ++ elemsKeys t := by
        simp [elemsKeys, rowOf]
      obtain ⟨u1, u2, u3, u4⟩ := updateRoleNames_spec fs st
      obtain ⟨p1, p2, p3, p4, p5⟩ := ih (acc ++ [fs]) (updateRoleNames fs st)
      rw [hstep, hek]
      refine ⟨?_, ?_, ?_, ?_, ?_⟩
      · rw [p1]
        simp [rowOf]
      · rw [p2, u1]
      · rw [p3, u2, u4]
        rw [newKeys_append, withIds_append]
        simp [List.append_assoc, withIds_map_fst]
      · rw [p4, u3, u4, u2]
        rw [newKeys_append, withIds_append]
        simp [List.append_assoc, withIds_map_fst]
      · rw [p5, u4, u2]
        rw [newKeys_append]
        simp [withIds_map_fst]
        try omega
    | jnull => simpa [processElems, elemsKeys, rowOf] using ih acc st
    | jbool b => simpa [processElems, elemsKeys, rowOf] using ih acc st
    | jnum n => simpa [processElems, elemsKeys, rowOf] using ih acc st
    | jstr s => simpa [processElems, elemsKeys, rowOf] using ih acc st
    | jarr l => simpa [processElems, elemsKeys, rowOf] using ih acc st

/-- A payload whose top level is not an array leaves the state exactly
as it was: setJsonData returns before touching anything. -/
theorem setJsonData_not_arr (p : Json) (st : TableSt)
    (h : p.isArr = false) : setJsonData p st = st := by
  cases p <;> simp_all [setJsonData, Json.isArr]

/-- Characterization of setJsonData on an array payload: the rows become
exactly the object-shaped records in order, the role tables grow by the
not-yet-seen traversed keys, consecutively numbered, and the counter
advances accordingly. -/
theorem setJsonData_arr_spec (elems : List Json) (st : TableSt) :
    (setJsonData (.jarr elems) st).items = elems.filterMap rowOf
    ∧ (setJsonData (.jarr elems) st).roleIds =
        st.roleIds ++ withIds st.nextRoleId
          (newKeys (st.roleIds.map Prod.fst) (elemsKeys elems))
    ∧ (setJsonData (.jarr elems) st).roleNames =
        st.roleNames ++ (withIds st.nextRoleId
          (newKeys (st.roleIds.map Prod.fst) (elemsKeys elems))).map
            (fun p => (p.2, p.1))
    ∧ (setJsonData (.jarr elems) st).nextRoleId =
        st.nextRoleId +
          (newKeys (st.roleIds.map Prod.fst) (elemsKeys elems)).length := by
  obtain ⟨h1, h2, h3, h4, h5⟩ := processElems_spec elems [] st
  exact ⟨by simpa [setJsonData] using h1, by simpa [setJsonData] using h3,
    by simpa [setJsonData] using h4, by simpa [setJsonData] using h5⟩

/-- Characterization of a whole operation sequence: the role tables grow
by the not-yet-seen traversed keys in first-seen order, consecutively
numbered from the incoming counter, which advances by their number; the
id-to-name table stays the entry-wise swap of the name-to-id table. -/
theorem applyTOps_roles (ops : List TOp) :
    ∀ st : TableSt,
      (applyTOps ops st).roleIds =
          st.roleIds ++ withIds st.nextRoleId
            (newKeys (st.roleIds.map Prod.fst) (opsKeys ops))
      ∧ (applyTOps ops st).roleNames =
          st.roleNames ++ (withIds st.nextRoleId
            (newKeys (st.roleIds.map Prod.fst) (opsKeys ops))).map
              (fun p => (p.2, p.1))
      ∧ (applyTOps ops st).nextRoleId =
          st.nextRoleId +
            (newKeys (st.roleIds.map Prod.fst) (opsKeys ops)).length := by
  induction ops with
  | nil => intro st; simp [applyTOps, opsKeys, newKeys, withIds]
  | cons o t ih =>
    intro st
    have hstep : applyTOps (o :: t) st = applyTOps t (applyTOp st o) := rfl
    cases o with
    | clearOp =>
      have hclear : applyTOp st .clearOp = clearTable st := rfl
      rw [hstep, hclear]
      simpa [clearTable, opsKeys] using ih (clearTable st)
    | setData p =>
      cases p with
      | jarr elems =>
        obtain ⟨a1, a2, a3, a4⟩ := setJsonData_arr_spec elems st
        obtain ⟨i1, i2, i3⟩ := ih (setJsonData (.jarr elems) st)
        have hok : opsKeys (TOp.setData (Json.jarr elems) :: t)
            = elemsKeys elems ++ opsKeys t := by
          simp [opsKeys, payloadKeys]
        rw [hstep]
        refine ⟨?_, ?_, ?_⟩
        · rw [show applyTOp st (TOp.setData (Json.jarr elems))
              = setJsonData (Json.jarr elems) st from rfl]
          rw [i1, a2, a4, hok]
          rw [newKeys_append, withIds_append]
          simp [List.append_assoc, withIds_map_fst]
        · rw [show applyTOp st (TOp.setData (Json.jarr elems))
              = setJsonData (Json.jarr elems) st from rfl]
          rw [i2, a3, a4, a2, hok]
          rw [newKeys_append, withIds_append]
          simp [List.append_assoc, withIds_map_fst]
        · rw [show applyTOp st (TOp.setData (Json.jarr elems))
              = setJsonData (Json.jarr elems) st from rfl]
          rw [i3, a4, a2, hok]
          rw [newKeys_append]
          simp [withIds_map_fst]
          try omega
      | jnull =>
        have hx := ih st
        simpa [applyTOps, applyTOp, setJsonData, opsKeys, payloadKeys] using hx
      | jbool b =>
        have hx := ih st
        simpa [applyTOps, applyTOp, setJsonData, opsKeys, payloadKeys] using hx
      | jnum n =>
        have hx := ih st
        simpa [applyTOps, applyTOp, setJsonData, opsKeys, payloadKeys] using hx
      | jstr s =>
        have hx := ih st
        simpa [applyTOps, applyTOp, setJsonData, opsKeys, payloadKeys] using hx
      | jobj fs =>
        have hx := ih st
        simpa [applyTOps, applyTOp, setJsonData, opsKeys, payloadKeys] using hx

/-- Characterization at a fresh model: after any operation sequence the
name-to-id table is exactly the first-seen traversal keys numbered
consecutively from 257, the id-to-name table is its entry-wise swap, and
the counter sits past the last assigned id. -/
theorem applyTOps_init_spec (ops : List TOp) :
    (applyTOps ops initTable).roleIds =
        withIds 257 (newKeys [] (opsKeys ops))
    ∧ (applyTOps ops initTable).roleNames =
        (withIds 257 (newKeys [] (opsKeys ops))).map (fun p => (p.2, p.1))
    ∧ (applyTOps ops initTable).nextRoleId =
        257 + (newKeys [] (opsKeys ops)).length := by
  obtain ⟨h1, h2, h3⟩ := applyTOps_roles ops initTable
  refine ⟨?_, ?_, ?_⟩
  · rw [h1]; simp [initTable]
  · rw [h2]; simp [initTable]
  · rw [h3]; simp [initTable]

/-- In every reachable table state the id-to-name table inverts the
name-to-id table: the id assigned to a name maps back to that name. -/
theorem roleNames_inverse (ops : List TOp) (name : String) (rid : Nat)
    (h : alookup name (applyTOps ops initTable).roleIds = some rid) :
    alookup rid (applyTOps ops initTable).roleNames = some name := by
  obtain ⟨h1, h2, _⟩ := applyTOps_init_spec ops
  rw [h1] at h
  rw [h2]
  exact alookup_withIds_swap (newKeys [] (opsKeys ops)) 257 rid name
    (newKeys_nodup_not_seen (opsKeys ops) []).1 h

/-- The rows the element loop keeps are as many as the object-shaped
elements. -/
theorem length_filterMap_rowOf (elems : List Json) :
    (elems.filterMap rowOf).length = (elems.filter Json.isObj).length := by
  induction elems with
  | nil => simp
  | cons v t ih => cases v <;> simp [rowOf, Json.isObj, ih]

/-- Trace correspondence for the callback registry: starting from a state
with distinct signal names, the handler table after a trace reads, for
each name, exactly what the most-recent-successful-register discipline
predicts, and its names stay distinct. -/
theorem applyROps_lookup (ops : List ROp) :
    ∀ (st : FwdSt) (name : String),
      (st.handlers.map Prod.fst).Nodup →
      alookup name (applyROps ops st).handlers
          = lastHandlerFrom (alookup name st.handlers) name ops
      ∧ ((applyROps ops st).handlers.map Prod.fst).Nodup := by
  induction ops with
  | nil => intro st name hnd; exact ⟨rfl, hnd⟩
  | cons o t ih =>
    intro st name hnd
    cases o with
    | reg n h =>
      cases h with
      | none =>
        have hstep : applyROps (ROp.reg n none :: t) st = applyROps t st := rfl
        rw [hstep]
        exact ih st name hnd
      | some hv =>
        have hstep : applyROps (ROp.reg n (some hv) :: t) st
            = applyROps t { st with handlers := updateAssoc n hv st.handlers } := by
          simp [applyROps, applyROp, registerHandler]
        rw [hstep]
        obtain ⟨e1, e2⟩ := ih { st with handlers := updateAssoc n hv st.handlers }
          name (nodup_keys_updateAssoc n hv hnd)
        refine ⟨?_, e2⟩
        rw [e1]
        simp only [lastHandlerFrom, alookup_updateAssoc]
    | unreg n =>
      cases hlk : alookup n st.handlers with
      | none =>
        have hstep : applyROps (ROp.unreg n :: t) st = applyROps t st := by
          simp [applyROps, applyROp, unregisterHandler, hlk]
        rw [hstep]
        obtain ⟨e1, e2⟩ := ih st name hnd
        refine ⟨?_, e2⟩
        rw [e1]
        by_cases hn : n = name
        · subst hn
          simp [lastHandlerFrom, hlk]
        · simp [lastHandlerFrom, hn]
      | some hv =>
        have hstep : applyROps (ROp.unreg n :: t) st
            = applyROps t { st with handlers := eraseKey n st.handlers } := by
          simp [applyROps, applyROp, unregisterHandler, hlk]
        rw [hstep]
        have hsub : ((eraseKey n st.handlers).map Prod.fst).Nodup :=
          ((eraseKey_sublist n st.handlers).map Prod.fst).nodup hnd
        obtain ⟨e1, e2⟩ := ih { st with handlers := eraseKey n st.handlers }
          name hsub
        refine ⟨?_, e2⟩
        rw [e1]
        by_cases hn : n = name
        · subst hn
          simp [lastHandlerFrom, alookup_eraseKey_self n hnd]
        · have hne : name ≠ n := fun he => hn he.symm
          simp [lastHandlerFrom, hn, alookup_eraseKey_ne hne]

/-- Claim C2: over any sequence of setData and clear calls on one table
model, the name-to-id table is exactly the traversed field names in
first-seen order numbered consecutively from 257 (so every name appearing
in an object-shaped record has exactly one FieldId, ids are assigned in
first-seen order), the names are pairwise distinct, every traversed field
name is present, any continuation only appends fresh entries numbered
from the current counter (no id is ever reassigned, reused or reclaimed),
and clear touches neither the name-to-id table nor the id counter. -/
theorem C2_fieldId_assignment (ops more : List TOp) :
    (applyTOps ops initTable).roleIds =
        withIds 257 (newKeys [] (opsKeys ops))
    ∧ ((applyTOps ops initTable).roleIds.map Prod.fst).Nodup
    ∧ (∀ k, k ∈ opsKeys ops →
        k ∈ (applyTOps ops initTable).roleIds.map Prod.fst)
    ∧ (applyTOps more (applyTOps ops initTable)).roleIds =
        (applyTOps ops initTable).roleIds ++
          withIds (applyTOps ops initTable).nextRoleId
            (newKeys ((applyTOps ops initTable).roleIds.map Prod.fst)
              (opsKeys more))
    ∧ (clearTable (applyTOps ops initTable)).roleIds =
        (applyTOps ops initTable).roleIds
    ∧ (clearTable (applyTOps ops initTable)).nextRoleId =
        (applyTOps ops initTable).nextRoleId := by
  obtain ⟨h1, h2, h3⟩ := applyTOps_init_spec ops
  refine ⟨h1, ?_, ?_, (applyTOps_roles more (applyTOps ops initTable)).1,
    rfl, rfl⟩
  · rw [h1, withIds_map_fst]
    exact (newKeys_nodup_not_seen (opsKeys ops) []).1
  · intro k hk
    rw [h1, withIds_map_fst]
    exact mem_newKeys k (opsKeys ops) [] hk (by simp)

/-- Witness for C2 at the spec's end-to-end scenario 2 payload: the two
field names receive the first two ids in first-seen order, and the later
field is indeed covered. -/
theorem C2_fieldId_assignment_witness :
    (applyTOps [TOp.setData (Json.jarr
        [Json.jobj [("name", Json.jstr "x")],
         Json.jobj [("name", Json.jstr "y"), ("age", Json.jnum 3)]])]
      initTable).roleIds = [("name", 257), ("age", 258)]
    ∧ "age" ∈ ((applyTOps [TOp.setData (Json.jarr
        [Json.jobj [("name", Json.jstr "x")],
         Json.jobj [("name", Json.jstr "y"), ("age", Json.jnum 3)]])]
      initTable).roleIds.map Prod.fst) :=
  ⟨((C2_fieldId_assignment [TOp.setData (Json.jarr
        [Json.jobj [("name", Json.jstr "x")],
         Json.jobj [("name", Json.jstr "y"), ("age", Json.jnum 3)]])] []).1).trans
      (by decide),
   (C2_fieldId_assignment [TOp.setData (Json.jarr
        [Json.jobj [("name", Json.jstr "x")],
         Json.jobj [("name", Json.jstr "y"), ("age", Json.jnum 3)]])] []).2.2.1
      "age" (by decide)⟩

/-- Claim C4: a payload whose top level is not a sequence is rejected and
the table is left completely unchanged: whole state, row sequence, row
count, FieldId table and counter are exactly what they were. -/
theorem C4_nonsequence_rejected (p : Json) (st : TableSt)
    (h : p.isArr = false) :
    setJsonData p st = st
    ∧ (setJsonData p st).items = st.items
    ∧ countModel (setJsonData p st) = countModel st
    ∧ (setJsonData p st).roleIds = st.roleIds
    ∧ (setJsonData p st).nextRoleId = st.nextRoleId := by
  have he := setJsonData_not_arr p st h
  exact ⟨he, by rw [he], by rw [he], by rw [he], by rw [he]⟩

/-- Witness for C4 at the spec's end-to-end scenario 3: a loaded table
fed a non-sequence payload still shows the first payload's single row. -/
theorem C4_nonsequence_rejected_witness :
    (Json.jstr "not an array").isArr = false
    ∧ setJsonData (Json.jstr "not an array")
        (setJsonData (Json.jarr [Json.jobj [("a", Json.jnum 1)]]) initTable)
      = setJsonData (Json.jarr [Json.jobj [("a", Json.jnum 1)]]) initTable
    ∧ countModel
        (setJsonData (Json.jarr [Json.jobj [("a", Json.jnum 1)]]) initTable)
      = 1 :=
  ⟨rfl,
   (C4_nonsequence_rejected (Json.jstr "not an array")
     (setJsonData (Json.jarr [Json.jobj [("a", Json.jnum 1)]]) initTable)
     rfl).1,
   rfl⟩

/-- Claim C7: after setData of a sequence payload, count equals the number
of object-shaped records; non-object records are excluded and do not
abort processing (the rows are exactly the object-shaped records, in
order). -/
theorem C7_count_object_records (elems : List Json) (st : TableSt) :
    countModel (setJsonData (.jarr elems) st)
      = (elems.filter Json.isObj).length
    ∧ (setJsonData (.jarr elems) st).items = elems.filterMap rowOf := by
  obtain ⟨h1, _, _, _⟩ := setJsonData_arr_spec elems st
  refine ⟨?_, h1⟩
  simp only [countModel]
  rw [h1, length_filterMap_rowOf]

/-- Claim C3: over any sequence of register and unregister calls, the
registry holds at most one entry per signal name (distinct names), the
handler present for a name is exactly the one of the most recent
successful register not followed by an unregister, registering over an
existing name unpins the old handle before pinning the new one, and
unregister of an absent name is a no-op. -/
theorem C3_registry_most_recent (ops : List ROp) (name : String) :
    alookup name (applyROps ops initFwd).handlers = lastHandler ops name
    ∧ ((applyROps ops initFwd).handlers.map Prod.fst).Nodup
    ∧ (∀ (s : FwdSt) (hnew old : Nat),
        alookup name s.handlers = some old →
        registerHandler name (some hnew) s
          = ({ s with handlers := updateAssoc name hnew s.handlers }, true,
             [PinAct.unpin old, PinAct.pin hnew]))
    ∧ (∀ s : FwdSt, alookup name s.handlers = none →
        unregisterHandler name s = (s, [])) := by
  obtain ⟨e1, e2⟩ := applyROps_lookup ops initFwd name (by simp [initFwd])
  refine ⟨e1, e2, ?_, ?_⟩
  · intro s hnew old hlk
    simp [registerHandler, hlk]
  · intro s hlk
    simp [unregisterHandler, hlk]

/-- Witness for C3: re-registering under the same name leaves the newest
handler; replacement unpins the old handle first; unregistering a missing
name is a no-op. -/
theorem C3_registry_most_recent_witness :
    alookup "clicked" (applyROps
        [ROp.reg "clicked" (some 1), ROp.reg "clicked" (some 2)]
        initFwd).handlers = some 2
    ∧ registerHandler "clicked" (some 2)
        ⟨[("clicked", 1)], true, false⟩
      = (⟨[("clicked", 2)], true, false⟩, true,
         [PinAct.unpin 1, PinAct.pin 2])
    ∧ unregisterHandler "missing" initFwd = (initFwd, []) := by
  refine ⟨?_, ?_, ?_⟩
  · exact ((C3_registry_most_recent
      [ROp.reg "clicked" (some 1), ROp.reg "clicked" (some 2)]
      "clicked").1).trans (by decide)
  · exact ((C3_registry_most_recent [] "clicked").2.2.1
      ⟨[("clicked", 1)], true, false⟩ 2 1 (by decide)).trans (by decide)
  · exact (C3_registry_most_recent [] "missing").2.2.2 initFwd rfl

/-- Claim C5: emitting a signal with no registered handler returns without
any error, invokes no callback, and leaves the whole forwarder state (the
registry, the attachment flag and the pending-fault flag) unchanged. -/
theorem C5_emit_unregistered_noop (beh : Nat → List String → Bool)
    (attachOk : Bool) (st : FwdSt) (name : String) (args : List Json)
    (h : alookup name st.handlers = none) :
    emitSignal beh attachOk st name args = (st, [], false) := by
  simp [emitSignal, callJavaHandler, h]

/-- Witness for C5 at a concrete unregistered signal. -/
theorem C5_emit_unregistered_noop_witness :
    emitSignal (fun _ _ => false) true initFwd "ghost" [Json.jstr "x"]
      = (initFwd, [], false) :=
  C5_emit_unregistered_noop (fun _ _ => false) true initFwd "ghost"
    [Json.jstr "x"] rfl

/-- Claim C6: when a registered handler raises a fault during the callback
invoked by emit, the handler is invoked exactly once with the textual
arguments, the fault is logged exactly when the handler raised, the fault
is cleared at the boundary (no fault is pending after emit, so nothing
propagates into the caller), and the registry is unchanged. -/
theorem C6_handler_fault_cleared (beh : Nat → List String → Bool)
    (attachOk : Bool) (st : FwdSt) (name : String) (args : List Json)
    (hdl : Nat) (hlk : alookup name st.handlers = some hdl)
    (hatt : st.attached = true ∨ attachOk = true) :
    (emitSignal beh attachOk st name args).2.1
        = [(hdl, args.map toStringQ)]
    ∧ (emitSignal beh attachOk st name args).1.pendingException = false
    ∧ ((emitSignal beh attachOk st name args).2.2 = true
        ↔ beh hdl (args.map toStringQ) = true)
    ∧ (emitSignal beh attachOk st name args).1.handlers = st.handlers := by
  have hguard : ¬ (st.attached = false ∧ attachOk = false) := by
    rcases hatt with h | h <;> simp [h]
  cases hb : beh hdl (args.map toStringQ) with
  | false =>
    refine ⟨?_, ?_, ?_, ?_⟩ <;>
      simp [emitSignal, callJavaHandler, hlk, hguard, hb]
  | true =>
    refine ⟨?_, ?_, ?_, ?_⟩ <;>
      simp [emitSignal, callJavaHandler, hlk, hguard, hb]

/-- Witness for C6: a handler that raises on a concrete emit is called
once, the fault is logged, and no fault is pending afterwards. -/
theorem C6_handler_fault_cleared_witness :
    (emitSignal (fun _ _ => true) true ⟨[("clicked", 7)], true, false⟩
        "clicked" [Json.jstr "a"]).2.1 = [(7, ["a"])]
    ∧ (emitSignal (fun _ _ => true) true ⟨[("clicked", 7)], true, false⟩
        "clicked" [Json.jstr "a"]).1.pendingException = false
    ∧ (emitSignal (fun _ _ => true) true ⟨[("clicked", 7)], true, false⟩
        "clicked" [Json.jstr "a"]).2.2 = true := by
  obtain ⟨w1, w2, w3, _⟩ := C6_handler_fault_cleared (fun _ _ => true) true
    ⟨[("clicked", 7)], true, false⟩ "clicked" [Json.jstr "a"] 7 rfl
    (Or.inl rfl)
  exact ⟨by simpa using w1, w2, w3.mpr rfl⟩

/-- Claim C1, evaluated at the failing input: with auto-reload on and the
file watched, two change notifications 20 ms apart (both inside the
100 ms window before any deferred reload fires) leave TWO independent
single-shot timers pending, firing at 100 ms and 120 ms, so the burst
produces two reloads.  The claim (and the spec) predicts that the second
notification cancels the pending reload and exactly one reload occurs;
the embedded code keeps no handle to the scheduled timer and cancels
nothing. -/
theorem C1_debounce_two_notifications_two_reloads :
    (notifyAll [(0, "main.qml"), (20, "main.qml")]
        { autoReload := true, watched := ["main.qml"],
          pendingTimers := [] }).pendingTimers
      = [(100, "main.qml"), (120, "main.qml")]
    ∧ reloadsFired (notifyAll [(0, "main.qml"), (20, "main.qml")]
        { autoReload := true, watched := ["main.qml"],
          pendingTimers := [] }) = 2 := by
  constructor <;> rfl

/-- Claim C8: a reload attempt that yields zero root objects is treated as
a failure: it is logged, the watcher state (in particular the auto-reload
flag and the watch list) is exactly what it was, the process is not
terminated, and the watcher remains armed — a next change notification
still schedules a reload. -/
theorem C8_zero_roots_failure (w : WatchSt) (e : EngineSt) (lr : List Nat)
    (t : Nat) (p : String) (h : lr = []) :
    (reloadQml true lr w e).watcher = w
    ∧ (reloadQml true lr w e).watcher.autoReload = w.autoReload
    ∧ (reloadQml true lr w e).terminated = false
    ∧ (reloadQml true lr w e).failureLogged = true
    ∧ (w.autoReload = true →
        (onFileChanged t p (reloadQml true lr w e).watcher).pendingTimers.length
          = w.pendingTimers.length + 1) := by
  subst h
  have hout : reloadQml true [] w e
      = ⟨w, { roots := [], deferredDeletions := e.deferredDeletions ++ e.roots,
              cacheCleared := true }, false, true⟩ := by
    simp [reloadQml]
  refine ⟨by rw [hout], by rw [hout], by rw [hout], by rw [hout], ?_⟩
  intro har
  rw [hout]
  by_cases hp : p ∈ w.watched <;> simp [onFileChanged, har, hp]

/-- Witness for C8 at a concrete failed reload. -/
theorem C8_zero_roots_failure_witness :
    (reloadQml true []
        { autoReload := true, watched := ["main.qml"], pendingTimers := [] }
        ⟨[1], [], false⟩).watcher
      = { autoReload := true, watched := ["main.qml"], pendingTimers := [] }
    ∧ (reloadQml true []
        { autoReload := true, watched := ["main.qml"], pendingTimers := [] }
        ⟨[1], [], false⟩).terminated = false
    ∧ (reloadQml true []
        { autoReload := true, watched := ["main.qml"], pendingTimers := [] }
        ⟨[1], [], false⟩).failureLogged = true := by
  obtain ⟨w1, _, w3, w4, _⟩ := C8_zero_roots_failure
    { autoReload := true, watched := ["main.qml"], pendingTimers := [] }
    ⟨[1], [], false⟩ [] 0 "main.qml" rfl
  exact ⟨w1, w3, w4⟩

/-- Claim C10: creating a named model is idempotent: when a model with the
name already exists, create-named-model is a no-op that creates nothing
and leaves the registry, in particular the existing model instance,
exactly unchanged. -/
theorem C10_createModel_idempotent (name : String) (st : BridgeSt)
    (m : TableSt) (h : alookup name st.models = some m) :
    createModel name st = st
    ∧ alookup name (createModel name st).models = some m
    ∧ (createModel name st).models.length = st.models.length := by
  by_cases he : st.engineInit = false
  · refine ⟨?_, ?_, ?_⟩ <;> simp [createModel, he, h]
  · refine ⟨?_, ?_, ?_⟩ <;> simp [createModel, he, h]

/-- Witness for C10 at a concrete registry already holding the model. -/
theorem C10_createModel_idempotent_witness :
    createModel "m" ⟨true, [("m", initTable)]⟩
      = (⟨true, [("m", initTable)]⟩ : BridgeSt) :=
  (C10_createModel_idempotent "m" ⟨true, [("m", initTable)]⟩ initTable
    rfl).1

/-- Claim C9 is refuted at a concrete reachable state: after loading the
single row with the empty-string field name, the row index 0 is in range,
the field name "" is known (it holds FieldId 257) and present in the row
with value 5 — yet get returns absent, not the stored value, because the
code cannot distinguish an empty role name from a missing role. -/
theorem C9_get_counterexample :
    countModel (applyTOps
        [TOp.setData (Json.jarr [Json.jobj [("", Json.jnum 5)]])]
        initTable) = 1
    ∧ alookup "" (applyTOps
        [TOp.setData (Json.jarr [Json.jobj [("", Json.jnum 5)]])]
        initTable).roleIds = some 257
    ∧ (applyTOps
        [TOp.setData (Json.jarr [Json.jobj [("", Json.jnum 5)]])]
        initTable).items.get? 0 = some [("", Json.jnum 5)]
    ∧ alookup "" [("", Json.jnum 5)] = some (Json.jnum 5)
    ∧ jvmGet (applyTOps
        [TOp.setData (Json.jarr [Json.jobj [("", Json.jnum 5)]])]
        initTable) 0 "" = none
    ∧ jvmGet (applyTOps
        [TOp.setData (Json.jarr [Json.jobj [("", Json.jnum 5)]])]
        initTable) 0 "" ≠ some (Json.jnum 5) := by
  have hnone : jvmGet (applyTOps
      [TOp.setData (Json.jarr [Json.jobj [("", Json.jnum 5)]])]
      initTable) 0 "" = none := rfl
  refine ⟨rfl, rfl, rfl, rfl, hnone, ?_⟩
  rw [hnone]
  simp

/-- Claim C9 as amended: get is total (it is a function and never raises);
it returns the stored value when the row index is in range and the field
name is known and non-empty; it returns absent for an out-of-range row,
an unknown field name, or the empty field name — the role-name lookup
cannot distinguish an empty name from a missing role. -/
theorem C9_get_total_amended (ops : List TOp) (row : Int) (name : String) :
    (∀ rid item,
        0 ≤ row →
        row < (countModel (applyTOps ops initTable) : Int) →
        name ≠ "" →
        alookup name (applyTOps ops initTable).roleIds = some rid →
        (applyTOps ops initTable).items.get? row.toNat = some item →
        jvmGet (applyTOps ops initTable) row name = alookup name item)
    ∧ ((row < 0 ∨ (countModel (applyTOps ops initTable) : Int) ≤ row) →
        jvmGet (applyTOps ops initTable) row name = none)
    ∧ (alookup name (applyTOps ops initTable).roleIds = none →
        jvmGet (applyTOps ops initTable) row name = none)
    ∧ jvmGet (applyTOps ops initTable) row "" = none := by
  refine ⟨?_, ?_, ?_, ?_⟩
  · intro rid item h0 h1 hne hlk hget
    have hinv := roleNames_inverse ops name rid hlk
    have hcast : (countModel (applyTOps ops initTable) : Int)
        = ((applyTOps ops initTable).items.length : Int) := rfl
    have hcond : ¬ (row < 0
        ∨ ((applyTOps ops initTable).items.length : Int) ≤ row) := by
      omega
    simp only [jvmGet, hlk]
    simp only [dataFn]
    rw [if_neg hcond]
    rw [List.get?_eq_getElem?] at hget
    simp [hget, hinv, hne]
  · intro hor
    have hcast : (countModel (applyTOps ops initTable) : Int)
        = ((applyTOps ops initTable).items.length : Int) := rfl
    have hcond : row < 0
        ∨ ((applyTOps ops initTable).items.length : Int) ≤ row := by
      omega
    cases hlk : alookup name (applyTOps ops initTable).roleIds with
    | none => simp [jvmGet, hlk]
    | some rid =>
      simp only [jvmGet, hlk]
      simp only [dataFn]
      rw [if_pos hcond]
  · intro h
    simp [jvmGet, h]
  · cases hlk : alookup "" (applyTOps ops initTable).roleIds with
    | none => simp [jvmGet, hlk]
    | some rid =>
      have hinv := roleNames_inverse ops "" rid hlk
      by_cases hcond : row < 0
          ∨ ((applyTOps ops initTable).items.length : Int) ≤ row
      · simp only [jvmGet, hlk]
        simp only [dataFn]
        rw [if_pos hcond]
      · simp only [jvmGet, hlk]
        simp only [dataFn]
        rw [if_neg hcond]
        cases hget : (applyTOps ops initTable).items[row.toNat]? with
        | none => simp [hget]
        | some item => simp [hget, hinv]

/-- Witness for the amended C9 at the spec's end-to-end scenario 2 shape:
an in-range row and a known non-empty field name read back the stored
value. -/
theorem C9_get_total_amended_witness :
    jvmGet (applyTOps
        [TOp.setData (Json.jarr [Json.jobj [("a", Json.jnum 1)]])]
        initTable) 0 "a"
      = alookup "a" [("a", Json.jnum 1)] :=
  (C9_get_total_amended
      [TOp.setData (Json.jarr [Json.jobj [("a", Json.jnum 1)]])] 0 "a").1
    257 [("a", Json.jnum 1)] (by decide) (by decide) (by decide) rfl rfl
